import Mathlib

/-!
# pyclustering ccore: spinlock, elbow_data and the ensemble extractor

A shallow embedding of

* `ccore/src/parallel/spinlock.cpp` (`spinlock::try_lock`, `spinlock::lock`,
  `spinlock::unlock`),
* `ccore/src/cluster/elbow_data.hpp` (`elbow_data`),
* the ensemble extractor behind `allocate_sync_ensembles_sync_network` and
  `get_clusters_syncnet` of `ccore/ccore/interface_ccore.h`,

together with the properties proved about them.
-/

namespace ccore

namespace parallel

/-! ## spinlock: the atomic flag and the three member functions -/

/-- The value of `std::size_t` wraps at `2 ^ 64`. -/
def SIZE_T_MODULUS : Nat := 2 ^ 64

/-- The call `std::atomic_flag::test_and_set`: returns the previous value of the flag
and leaves the flag set. The pair is `(returned value, new flag)`. -/
def test_and_set (m_lock : Bool) : Bool × Bool := (m_lock, true)

/-- The call `std::atomic_flag::clear`: leaves the flag clear. -/
def clear (_m_lock : Bool) : Bool := false

/-- The member `spinlock::try_lock`: `return !m_lock.test_and_set(...)`.
The pair is `(returned value, new flag)`. -/
def try_lock (m_lock : Bool) : Bool × Bool :=
  let r := test_and_set m_lock
  (!r.1, r.2)

/-- The member `spinlock::unlock`: `m_lock.clear(...)`. Returns the new flag. -/
def unlock (m_lock : Bool) : Bool := clear m_lock

/-- What one run of `spinlock::lock` has done so far.
`yields` has one entry per failed `try_lock` attempt, in order: whether
`std::this_thread::yield()` was called in the loop body after that attempt. -/
inductive lock_run where
  /-- The loop condition became false: the last of `attempts` calls of
  `try_lock` returned `true`, and `flag` is the flag it left. -/
  | returned (attempts : Nat) (yields : List Bool) (flag : Bool)
  /-- All of the `attempts` calls of `try_lock` made so far returned `false`. -/
  | spinning (attempts : Nat) (yields : List Bool)
  deriving DecidableEq

namespace lock_run

/-- Number of `try_lock` calls made. -/
def attempts : lock_run → Nat
  | returned a _ _ => a
  | spinning a _ => a

/-- The yield record, one entry per failed attempt. -/
def yields : lock_run → List Bool
  | returned _ ys _ => ys
  | spinning _ ys => ys

/-- Whether `lock` has returned. -/
def has_returned : lock_run → Bool
  | returned _ _ _ => true
  | spinning _ _ => false

end lock_run

/-- The loop of `spinlock::lock`,
`for (std::size_t i = 0; !try_lock(); i++) { if (i % 100) yield(); }`.

`env k` is the value of the flag found by the attempt with zero-based index
`k` (other threads may set or clear the flag between two attempts), `fuel`
bounds the number of attempts that are run, `k` counts the attempts made,
`i` is the loop variable and `ys` the yield record so far. -/
def lock_loop (env : Nat → Bool) : Nat → Nat → Nat → List Bool → lock_run
  | 0, k, _, ys => lock_run.spinning k ys
  | fuel + 1, k, i, ys =>
    let r := try_lock (env k)
    if r.1 then
      lock_run.returned (k + 1) ys r.2
    else
      lock_loop env fuel (k + 1) ((i + 1) % SIZE_T_MODULUS)
        (ys ++ [decide (i % 100 ≠ 0)])

/-- The member `spinlock::lock`, run for at most `fuel` attempts. -/
def lock (env : Nat → Bool) (fuel : Nat) : lock_run :=
  lock_loop env fuel 0 0 []

/-- The yield record of `n` failed attempts in a row when the loop variable
starts at `i`. -/
def yield_trace : Nat → Nat → List Bool
  | _, 0 => []
  | i, n + 1 => decide (i % 100 ≠ 0) :: yield_trace ((i + 1) % SIZE_T_MODULUS) n

/-! ## Threads sharing one spinlock -/

/-- A call made by a thread (threads are numbered) on the shared spinlock. -/
inductive spin_call where
  | try_lock (thread : Nat)
  | unlock (thread : Nat)
  deriving DecidableEq

/-- A completed call: a `try_lock` with the value it returned, or an `unlock`. -/
inductive spin_record where
  | tried (thread : Nat) (ok : Bool)
  | unlocked (thread : Nat)
  deriving DecidableEq

/-- The shared flag together with the calls completed so far, most recent
first. -/
structure spin_state where
  m_lock : Bool
  history : List spin_record
  deriving DecidableEq

/-- A freshly constructed spinlock: the flag is clear, nothing has run. -/
def spin_init : spin_state := ⟨false, []⟩

/-- One atomic step: the calling thread runs `try_lock` or `unlock` on the
flag; the call and its result are appended to the history. -/
def spin_step (s : spin_state) : spin_call → spin_state
  | spin_call.try_lock t =>
    let r := try_lock s.m_lock
    ⟨r.2, spin_record.tried t r.1 :: s.history⟩
  | spin_call.unlock t =>
    ⟨unlock s.m_lock, spin_record.unlocked t :: s.history⟩

/-- An interleaving: the calls run one after the other, each atomically. -/
def spin_run (s : spin_state) (calls : List spin_call) : spin_state :=
  calls.foldl spin_step s

/-- Thread `t` holds the lock in the sense "its last `try_lock` returned
`true` and it has not unlocked since": the most recent call of `t` is a
`try_lock` that returned `true`. -/
def holds_by_last_try : List spin_record → Nat → Bool
  | [], _ => false
  | spin_record.tried u ok :: h, t => if u = t then ok else holds_by_last_try h t
  | spin_record.unlocked u :: h, t => if u = t then false else holds_by_last_try h t

/-- Thread `t` holds the lock in the sense "a `try_lock` of its own returned
`true` and it has not unlocked since": failed attempts of `t` are skipped,
and the most recent other call of `t` is a `try_lock` that returned `true`. -/
def holds_lock : List spin_record → Nat → Bool
  | [], _ => false
  | spin_record.tried u ok :: h, t => if u = t ∧ ok = true then true else holds_lock h t
  | spin_record.unlocked u :: h, t => if u = t then false else holds_lock h t

/-- The calling discipline: every `unlock` in `calls` is made by a thread
that holds the lock (in the sense `holding`) at that moment. -/
def disciplined (holding : List spin_record → Nat → Bool) :
    spin_state → List spin_call → Bool
  | _, [] => true
  | s, spin_call.try_lock t :: cs =>
    disciplined holding (spin_step s (spin_call.try_lock t)) cs
  | s, spin_call.unlock t :: cs =>
    holding s.history t && disciplined holding (spin_step s (spin_call.unlock t)) cs

/-- Mutual exclusion in state `s`: at most one thread holds the lock, and
the flag is set exactly when some thread holds it. -/
def mutual_exclusion (holding : List spin_record → Nat → Bool) (s : spin_state) : Prop :=
  (∀ t u, holding s.history t = true → holding s.history u = true → t = u) ∧
  (s.m_lock = true ↔ ∃ t, holding s.history t = true)

end parallel

/-! ## elbow_data -/

namespace clst

/-- The alias `using wce_sequence = std::vector<double>`. -/
abbrev wce_sequence := List Float

/-- The class `elbow_data`, with the default member initialisers
`m_amount = 0` and `m_wce = { }`. -/
structure elbow_data where
  m_amount : Nat
  m_wce : wce_sequence

namespace elbow_data

/-- The default constructor `elbow_data(void) = default`. -/
def default : elbow_data := ⟨0, []⟩

/-- The member `get_wce`: `return m_wce`. -/
def get_wce (d : elbow_data) : wce_sequence := d.m_wce

/-- The member `set_amount`: `m_amount = p_amount`. Returns the object after the call. -/
def set_amount (d : elbow_data) (p_amount : Nat) : elbow_data := ⟨p_amount, d.m_wce⟩

/-- The member `get_amount`: `return m_amount`. -/
def get_amount (d : elbow_data) : Nat := d.m_amount

end elbow_data

end clst

/-! ## The ensemble extractor of the oscillatory network -/

namespace sync

/-- Modelled from the spec: the oscillatory network behind the opaque handle
`pointer_network` of `allocate_sync_ensembles_sync_network` and
`get_clusters_syncnet`, whose class is defined outside the files embedded here.
`size` is the number of oscillators, `connected` the coupling relation
(section 3, Coupling Matrix), and `phase_tolerant tolerance i j` the test
"the phase difference of `i` and `j` modulo 2π is within `tolerance`"
(section 4.5), a comparison of floating-point phases that is left abstract. -/
structure sync_network where
  size : Nat
  connected : Nat → Nat → Bool
  phase_tolerant : ℚ → Nat → Nat → Bool

/-- Modelled from the spec: the graph of section 4.5, in which "an edge exists
iff oscillators are network-connected and phase-tolerant". -/
def ensemble_edge (net : sync_network) (tolerance : ℚ) (i j : Nat) : Bool :=
  net.connected i j && net.phase_tolerant tolerance i j

/-- Modelled from the spec: one connected component (section 4.5,
"ensemble membership is transitive through connectivity"). Oscillators of
`rest` joined by an edge to a member of `comp` are moved into `comp`, round
after round, until none is left to move. The result is the component and the
oscillators that stay outside. -/
def grow_ensemble (edge : Nat → Nat → Bool) :
    Nat → List Nat → List Nat → List Nat × List Nat
  | 0, comp, rest => (comp, rest)
  | fuel + 1, comp, rest =>
    let near := rest.filter (fun j => comp.any (fun c => edge c j || edge j c))
    let far := rest.filter (fun j => !comp.any (fun c => edge c j || edge j c))
    if near.isEmpty then (comp, rest)
    else grow_ensemble edge fuel (comp ++ near) far

/-- Modelled from the spec: the connected-components computation of section
4.5 over the oscillators still unassigned (`pending`): the first of them
seeds an ensemble, which takes everything reachable from it; an unconnected
oscillator forms an ensemble of its own. -/
def extract_ensembles (edge : Nat → Nat → Bool) : Nat → List Nat → List (List Nat)
  | 0, _ => []
  | _ + 1, [] => []
  | fuel + 1, i :: rest =>
    let r := grow_ensemble edge rest.length [i] rest
    r.1 :: extract_ensembles edge fuel r.2

/-- Modelled from the spec: the Ensemble Extractor (section 4.5), "given a
final phase vector and a tolerance, produce a Cluster Ensemble", as the list
of its groups of oscillator indices. -/
def allocate_sync_ensembles (net : sync_network) (tolerance : ℚ) : List (List Nat) :=
  extract_ensembles (ensemble_edge net tolerance) net.size (List.range net.size)

/-- Modelled from the spec: the boundary call `allocate_sync_ensembles_sync_network`
(declared in `interface_ccore.h`, its definition is outside the files embedded
here), which
"returns ensembles of synchronous oscillators as clustering result". -/
def allocate_sync_ensembles_sync_network (pointer_network : sync_network)
    (tolerance : ℚ) : List (List Nat) :=
  allocate_sync_ensembles pointer_network tolerance

/-- Modelled from the spec: the boundary call `get_clusters_syncnet` (declared
in `interface_ccore.h`, its definition is outside the files embedded here), the same
extraction on the data-driven network. -/
def get_clusters_syncnet (pointer_network : sync_network)
    (tolerance : ℚ) : List (List Nat) :=
  allocate_sync_ensembles pointer_network tolerance

/-- The groups form a true partition of the indices `0 .. size - 1`: their
union is the full index set, they are pairwise disjoint, and every index
appears exactly once. -/
def is_partition (groups : List (List Nat)) (size : Nat) : Prop :=
  (∀ i, (∃ g, g ∈ groups ∧ i ∈ g) ↔ i < size) ∧
  groups.Pairwise List.Disjoint ∧
  ∀ i, i < size → groups.flatten.count i = 1

end sync

end ccore

/-! ## The boundary types of `interface_ccore.h` -/

namespace interface_ccore

/-- The values of `unsigned int` wrap at `2 ^ 32`. -/
def UINT_MODULUS : Nat := 2 ^ 32

/-- The enumeration `pyclustering_type_data`, its seven enumerators in the
order of the declaration. -/
inductive pyclustering_type_data where
  | PYCLUSTERING_TYPE_INT
  | PYCLUSTERING_TYPE_UNSIGNED_INT
  | PYCLUSTERING_TYPE_FLOAT
  | PYCLUSTERING_TYPE_DOUBLE
  | PYCLUSTERING_TYPE_LONG
  | PYCLUSTERING_TYPE_UNSIGNED_LONG
  | PYCLUSTERING_TYPE_LIST
  deriving DecidableEq

namespace pyclustering_type_data

/-- The value the declaration gives to each enumerator
(`PYCLUSTERING_TYPE_INT = 0`, ..., `PYCLUSTERING_TYPE_LIST = 6`). -/
def code : pyclustering_type_data → Nat
  | PYCLUSTERING_TYPE_INT => 0
  | PYCLUSTERING_TYPE_UNSIGNED_INT => 1
  | PYCLUSTERING_TYPE_FLOAT => 2
  | PYCLUSTERING_TYPE_DOUBLE => 3
  | PYCLUSTERING_TYPE_LONG => 4
  | PYCLUSTERING_TYPE_UNSIGNED_LONG => 5
  | PYCLUSTERING_TYPE_LIST => 6

/-- The seven enumerators, in the order of the declaration. -/
def tags : List pyclustering_type_data :=
  [PYCLUSTERING_TYPE_INT, PYCLUSTERING_TYPE_UNSIGNED_INT, PYCLUSTERING_TYPE_FLOAT,
    PYCLUSTERING_TYPE_DOUBLE, PYCLUSTERING_TYPE_LONG, PYCLUSTERING_TYPE_UNSIGNED_LONG,
    PYCLUSTERING_TYPE_LIST]

end pyclustering_type_data

/-- The struct `pyclustering_package`: `unsigned int size`, `unsigned int type`
and `void * data` (the pointer as an address). -/
structure pyclustering_package where
  size : Nat
  type : Nat
  data : Nat

namespace pyclustering_package

/-- The constructor `pyclustering_package(unsigned int package_type) :
type(package_type) { }`. It initialises `type` only; `size` and `data` keep
whatever the storage `raw` held. -/
def construct (raw : pyclustering_package) (package_type : Nat) : pyclustering_package :=
  ⟨raw.size, package_type, raw.data⟩

end pyclustering_package

end interface_ccore

open ccore.parallel ccore.clst ccore.sync interface_ccore

/-! ## spinlock: lemmas on the loop of `lock` -/

theorem try_lock_set : try_lock true = (false, true) := rfl

theorem try_lock_clear : try_lock false = (true, true) := rfl

/-- The loop returns at the first attempt that finds the flag clear. -/
theorem lock_loop_of_clear (env : Nat → Bool) :
    ∀ (n fuel k i : Nat) (ys : List Bool),
      (∀ j, j < n → env (k + j) = true) → env (k + n) = false → n < fuel →
      lock_loop env fuel k i ys
        = lock_run.returned (k + n + 1) (ys ++ yield_trace i n) true := by
  intro n
  induction n with
  | zero =>
    intro fuel k i ys _ hclear hfuel
    obtain ⟨f, rfl⟩ : ∃ f, fuel = f + 1 := ⟨fuel - 1, by omega⟩
    have h0 : env k = false := by simpa using hclear
    simp [lock_loop, h0, try_lock_clear, yield_trace]
  | succ n ih =>
    intro fuel k i ys hset hclear hfuel
    obtain ⟨f, rfl⟩ : ∃ f, fuel = f + 1 := ⟨fuel - 1, by omega⟩
    have h0 : env k = true := by simpa using hset 0 (by omega)
    have hset2 : ∀ j, j < n → env (k + 1 + j) = true := by
      intro j hj
      have := hset (j + 1) (by omega)
      rwa [show k + 1 + j = k + (j + 1) by omega]
    have hclear2 : env (k + 1 + n) = false := by
      rwa [show k + 1 + n = k + (n + 1) by omega]
    have step := ih f (k + 1) ((i + 1) % SIZE_T_MODULUS)
      (ys ++ [decide (i % 100 ≠ 0)]) hset2 hclear2 (by omega)
    simp only [lock_loop, h0, try_lock_set, Bool.false_eq_true, if_false]
    rw [step]
    simp [yield_trace, Nat.add_assoc, Nat.add_comm 1 n]

/-- While every attempt finds the flag set, the loop keeps spinning. -/
theorem lock_loop_of_set (env : Nat → Bool) :
    ∀ (fuel k i : Nat) (ys : List Bool),
      (∀ j, j < fuel → env (k + j) = true) →
      lock_loop env fuel k i ys
        = lock_run.spinning (k + fuel) (ys ++ yield_trace i fuel) := by
  intro fuel
  induction fuel with
  | zero =>
    intro k i ys _
    simp [lock_loop, yield_trace]
  | succ f ih =>
    intro k i ys hset
    have h0 : env k = true := by simpa using hset 0 (by omega)
    have hset2 : ∀ j, j < f → env (k + 1 + j) = true := by
      intro j hj
      have := hset (j + 1) (by omega)
      rwa [show k + 1 + j = k + (j + 1) by omega]
    have step := ih (k + 1) ((i + 1) % SIZE_T_MODULUS)
      (ys ++ [decide (i % 100 ≠ 0)]) hset2
    simp only [lock_loop, h0, try_lock_set, Bool.false_eq_true, if_false]
    rw [step]
    simp [yield_trace, Nat.add_assoc, Nat.add_comm 1 f]

/-- Within `fuel` attempts either all find the flag set, or there is a first
one that finds it clear. -/
theorem first_clear_or_all_set (env : Nat → Bool) :
    ∀ fuel : Nat, (∀ j, j < fuel → env j = true) ∨
      ∃ n, n < fuel ∧ (∀ j, j < n → env j = true) ∧ env n = false := by
  intro fuel
  induction fuel with
  | zero => left; intro j hj; omega
  | succ f ih =>
    rcases ih with hall | ⟨n, hn, hset, hclear⟩
    · cases hf : env f with
      | true =>
        left
        intro j hj
        rcases Nat.lt_succ_iff_lt_or_eq.mp hj with h | h
        · exact hall j h
        · rw [h]; exact hf
      | false => exact Or.inr ⟨f, by omega, hall, hf⟩
    · exact Or.inr ⟨n, by omega, hset, hclear⟩

/-- Entry `j` of the yield record: the loop variable of attempt `j` is
`(i + j) % 2 ^ 64`, and a yield follows when it is not a multiple of 100. -/
theorem yield_trace_getElem? :
    ∀ (n i j : Nat), j < n → i < SIZE_T_MODULUS →
      (yield_trace i n)[j]? = some (decide (((i + j) % SIZE_T_MODULUS) % 100 ≠ 0)) := by
  intro n
  induction n with
  | zero => intro i j hj; omega
  | succ n ih =>
    intro i j hj hi
    cases j with
    | zero =>
      simp [yield_trace, Nat.mod_eq_of_lt hi]
    | succ j =>
      have hlt : (i + 1) % SIZE_T_MODULUS < SIZE_T_MODULUS :=
        Nat.mod_lt _ (by unfold SIZE_T_MODULUS; omega)
      have := ih ((i + 1) % SIZE_T_MODULUS) j (by omega) hlt
      simp only [yield_trace, List.getElem?_cons_succ, this]
      have e : ((i + 1) % SIZE_T_MODULUS + j) % SIZE_T_MODULUS
          = (i + (j + 1)) % SIZE_T_MODULUS := by
        unfold SIZE_T_MODULUS; omega
      rw [e]

theorem yield_trace_length : ∀ (n i : Nat), (yield_trace i n).length = n := by
  intro n
  induction n with
  | zero => intro i; rfl
  | succ n ih => intro i; simp [yield_trace, ih]

/-- Every run of `lock` is of one of two shapes: it returned at the first
attempt that found the flag clear, or all its attempts found the flag set. -/
theorem lock_cases (env : Nat → Bool) (fuel : Nat) :
    (∃ n, n < fuel ∧ (∀ j, j < n → env j = true) ∧ env n = false ∧
        lock env fuel = lock_run.returned (n + 1) (yield_trace 0 n) true) ∨
    ((∀ j, j < fuel → env j = true) ∧
        lock env fuel = lock_run.spinning fuel (yield_trace 0 fuel)) := by
  rcases first_clear_or_all_set env fuel with hall | ⟨n, hn, hset, hclear⟩
  · right
    refine ⟨hall, ?_⟩
    have := lock_loop_of_set env fuel 0 0 [] (by simpa using hall)
    simpa [lock] using this
  · left
    refine ⟨n, hn, hset, hclear, ?_⟩
    have := lock_loop_of_clear env n fuel 0 0 [] (by simpa using hset)
      (by simpa using hclear) hn
    simpa [lock] using this

/-- The yield record of every run of `lock` is `yield_trace 0 m`, with `m`
the number of failed attempts. -/
theorem lock_yields_eq (env : Nat → Bool) (fuel : Nat) :
    ∃ m, (lock env fuel).yields = yield_trace 0 m ∧
      (lock env fuel).attempts
        = m + (if (lock env fuel).has_returned = true then 1 else 0) := by
  rcases lock_cases env fuel with ⟨n, _, _, _, h⟩ | ⟨_, h⟩
  · exact ⟨n, by simp [h, lock_run.yields, lock_run.attempts, lock_run.has_returned]⟩
  · exact ⟨fuel, by simp [h, lock_run.yields, lock_run.attempts, lock_run.has_returned]⟩

/-- Number of yields in a stretch of `n` failed attempts during which the
loop variable does not wrap. -/
theorem yield_trace_count :
    ∀ (n i : Nat), i + n ≤ SIZE_T_MODULUS →
      (yield_trace i n).count true = n - ((i + n + 99) / 100 - (i + 99) / 100) := by
  intro n
  induction n with
  | zero => intro i _; simp [yield_trace]
  | succ n ih =>
    intro i hi
    have key : (yield_trace ((i + 1) % SIZE_T_MODULUS) n).count true
        = n - ((i + 1 + n + 99) / 100 - (i + 1 + 99) / 100) := by
      cases n with
      | zero => simp [yield_trace]
      | succ m =>
        have hlt : i + 1 < SIZE_T_MODULUS := by omega
        rw [Nat.mod_eq_of_lt hlt]
        exact ih (i + 1) (by omega)
    simp only [yield_trace, List.count_cons, key]
    by_cases h0 : i % 100 = 0
    · simp only [h0, ne_eq, not_true_eq_false, decide_False, Bool.false_eq_true,
        beq_iff_eq, if_false]
      omega
    · simp only [h0, ne_eq, not_false_eq_true, decide_True, beq_self_eq_true, if_true]
      omega

/-! ## spinlock: the properties of `try_lock`, `lock` and `unlock` -/

/-- C2: `lock` is a busy-retry of `try_lock`. If the first `n` attempts find
the flag set and the next one finds it clear, then `lock` returns after exactly
`n + 1` attempts with the flag set (any budget above `n` attempts shows the
return, no budget up to `n` does); and whenever `lock` returns, its last
attempt was a successful `try_lock`, never a failed one. -/
theorem lock_busy_retry (env : Nat → Bool) (n : Nat)
    (hset : ∀ j, j < n → env j = true) (hclear : env n = false) :
    (∀ fuel, n < fuel → ∃ ys, lock env fuel = lock_run.returned (n + 1) ys true) ∧
    (∀ fuel, fuel ≤ n → (lock env fuel).has_returned = false) ∧
    (∀ (e : Nat → Bool) (fuel a : Nat) (ys : List Bool) (f : Bool),
      lock e fuel = lock_run.returned a ys f →
        0 < a ∧ (try_lock (e (a - 1))).1 = true ∧ f = true ∧
        ∀ j, j < a - 1 → (try_lock (e j)).1 = false) := by
  refine ⟨?_, ?_, ?_⟩
  · intro fuel hfuel
    have := lock_loop_of_clear env n fuel 0 0 [] (by simpa using hset)
      (by simpa using hclear) hfuel
    exact ⟨yield_trace 0 n, by simpa [lock] using this⟩
  · intro fuel hfuel
    have := lock_loop_of_set env fuel 0 0 []
      (by intro j hj; simpa using hset j (by omega))
    simp [lock, this, lock_run.has_returned]
  · intro e fuel a ys f h
    rcases lock_cases e fuel with ⟨m, _, hs, hc, hm⟩ | ⟨_, hm⟩
    · rw [hm] at h
      injection h with ha _ hf
      subst ha
      refine ⟨by omega, by simp [hc, try_lock_clear], hf.symm, ?_⟩
      intro j hj
      simp [hs j (by omega), try_lock_set]
    · rw [hm] at h
      cases h

/-- C3: `lock` yields after a bounded number of failed attempts, with bound
`B = 2`: in every run of `lock`, any two consecutive failed attempts (those
with indices `j` and `j + 1`) include one that is followed by a call to yield. -/
theorem lock_yield_bounded (env : Nat → Bool) (fuel j : Nat)
    (hj : j + 2 ≤ (lock env fuel).yields.length) :
    ∃ m, j ≤ m ∧ m < j + 2 ∧ (lock env fuel).yields[m]? = some true := by
  obtain ⟨n, hy, _⟩ := lock_yields_eq env fuel
  rw [hy] at hj ⊢
  rw [yield_trace_length] at hj
  have hM : (0 : Nat) < SIZE_T_MODULUS := by unfold SIZE_T_MODULUS; omega
  have e0 := yield_trace_getElem? n 0 j (by omega) hM
  have e1 := yield_trace_getElem? n 0 (j + 1) (by omega) hM
  by_cases h : ((0 + j) % SIZE_T_MODULUS) % 100 = 0
  · refine ⟨j + 1, by omega, by omega, ?_⟩
    rw [e1]
    have : ((0 + (j + 1)) % SIZE_T_MODULUS) % 100 ≠ 0 := by
      unfold SIZE_T_MODULUS at h ⊢; omega
    rw [decide_eq_true this]
  · refine ⟨j, by omega, by omega, ?_⟩
    rw [e0, decide_eq_true h]

/-- C4: a released lock can be acquired again. Whatever the flag was, a
`try_lock` directly after `unlock` returns `true` and leaves the flag set. -/
theorem try_lock_after_unlock (m_lock : Bool) :
    try_lock (unlock m_lock) = (true, true) := by
  cases m_lock <;> rfl

/-- C5: `lock` terminates exactly when some attempt finds the flag clear.
There is no timeout: in a run where every attempt finds the flag set, `lock`
has not returned after any number `fuel` of attempts, all of which it made.
An attempt itself never clears the flag, so without an `unlock` in between (a
second `lock` by the holder) every attempt finds it set. -/
theorem lock_terminates_iff (env : Nat → Bool) :
    ((∃ fuel, (lock env fuel).has_returned = true) ↔ ∃ k, env k = false) ∧
    ((∀ k, env k = true) →
      ∀ fuel, (lock env fuel).has_returned = false ∧ (lock env fuel).attempts = fuel) ∧
    (∀ m_lock, (try_lock m_lock).2 = true) := by
  refine ⟨⟨?_, ?_⟩, ?_, fun _ => rfl⟩
  · rintro ⟨fuel, h⟩
    rcases lock_cases env fuel with ⟨n, _, _, hc, _⟩ | ⟨_, hm⟩
    · exact ⟨n, hc⟩
    · rw [hm] at h
      simp [lock_run.has_returned] at h
  · rintro ⟨k, hk⟩
    refine ⟨k + 1, ?_⟩
    rcases lock_cases env (k + 1) with ⟨n, _, _, _, hm⟩ | ⟨hall, _⟩
    · simp [hm, lock_run.has_returned]
    · rw [hall k (by omega)] at hk
      cases hk
  · intro hall fuel
    have := lock_loop_of_set env fuel 0 0 [] (by intro j _; exact hall _)
    simp [lock, this, lock_run.has_returned, lock_run.attempts]

/-- C8: in `lock`, the failed attempt with zero-based index `j` is followed by
a yield exactly when `j % 100` is not 0, so a run of `lock` with `n` failed
attempts, `n` below `2 ^ 64`, calls yield exactly `n - ceil (n / 100)` times.
The run is any run of `lock`, returned or still spinning; its yield record has
one entry per failed attempt. -/
theorem lock_yield_count (env : Nat → Bool) (fuel n : Nat)
    (hfail : (lock env fuel).yields.length = n) (hn : n < SIZE_T_MODULUS) :
    (lock env fuel).attempts
      = n + (if (lock env fuel).has_returned = true then 1 else 0) ∧
    (∀ j, j < n → (lock env fuel).yields[j]? = some (decide (j % 100 ≠ 0))) ∧
    (lock env fuel).yields.count true = n - (n + 99) / 100 := by
  obtain ⟨m, hy, ha⟩ := lock_yields_eq env fuel
  rw [hy, yield_trace_length] at hfail
  subst hfail
  refine ⟨ha, ?_, ?_⟩
  · intro j hj
    have hM : (0 : Nat) < SIZE_T_MODULUS := by omega
    rw [hy, yield_trace_getElem? m 0 j hj hM]
    have : (0 + j) % SIZE_T_MODULUS = j := by
      rw [Nat.zero_add]; exact Nat.mod_eq_of_lt (by omega)
    rw [this]
  · rw [hy, yield_trace_count m 0 (by omega)]
    simp

/-- C2 at a concrete run: three attempts find the flag set, the fourth finds
it clear. -/
theorem lock_busy_retry_witness :
    (∀ j, j < 3 → (fun k => decide (k < 3)) j = true) ∧
    (fun k => decide (k < 3)) 3 = false ∧
    (∃ ys, lock (fun k => decide (k < 3)) 10 = lock_run.returned (3 + 1) ys true) ∧
    (lock (fun k => decide (k < 3)) 3).has_returned = false :=
  ⟨by intro j hj; simpa using hj, by decide,
    (lock_busy_retry (fun k => decide (k < 3)) 3 (by intro j hj; simpa using hj)
      (by decide)).1 10 (by decide),
    (lock_busy_retry (fun k => decide (k < 3)) 3 (by intro j hj; simpa using hj)
      (by decide)).2.1 3 (by decide)⟩

/-- C3 at a concrete run: five attempts that all find the flag set. -/
theorem lock_yield_bounded_witness :
    0 + 2 ≤ (lock (fun _ => true) 5).yields.length ∧
    ∃ m, 0 ≤ m ∧ m < 0 + 2 ∧ (lock (fun _ => true) 5).yields[m]? = some true :=
  ⟨by decide, lock_yield_bounded (fun _ => true) 5 0 (by decide)⟩

/-- C5 at a concrete run: the flag is never cleared. -/
theorem lock_terminates_iff_witness :
    (∀ k : Nat, (fun _ => true) k = true) ∧
    ∀ fuel, (lock (fun _ => true) fuel).has_returned = false ∧
      (lock (fun _ => true) fuel).attempts = fuel :=
  ⟨fun _ => rfl, (lock_terminates_iff (fun _ => true)).2.1 (fun _ => rfl)⟩

/-- C8 at a concrete run: 101 failed attempts, of which those with index 0
and 100 are not followed by a yield, then a successful attempt. -/
theorem lock_yield_count_witness :
    (lock (fun k => decide (k < 101)) 200).yields.length = 101 ∧
    101 < SIZE_T_MODULUS ∧
    (lock (fun k => decide (k < 101)) 200).attempts = 102 ∧
    (lock (fun k => decide (k < 101)) 200).yields.count true = 101 - (101 + 99) / 100 :=
  ⟨by decide, by decide,
    (lock_yield_count (fun k => decide (k < 101)) 200 101 (by decide) (by decide)).1,
    (lock_yield_count (fun k => decide (k < 101)) 200 101 (by decide) (by decide)).2.2⟩

/-! ## spinlock: mutual exclusion among threads -/

theorem holds_lock_tried (u : Nat) (ok : Bool) (h : List spin_record) (t : Nat) :
    holds_lock (spin_record.tried u ok :: h) t
      = if u = t ∧ ok = true then true else holds_lock h t := rfl

theorem holds_lock_unlocked (u : Nat) (h : List spin_record) (t : Nat) :
    holds_lock (spin_record.unlocked u :: h) t
      = if u = t then false else holds_lock h t := rfl

/-- A `try_lock` step keeps mutual exclusion. -/
theorem mutual_exclusion_try_lock (s : spin_state) (t : Nat)
    (h : mutual_exclusion holds_lock s) :
    mutual_exclusion holds_lock (spin_step s (spin_call.try_lock t)) := by
  obtain ⟨m, hist⟩ := s
  obtain ⟨huniq, hflag⟩ := h
  simp only at huniq hflag
  cases m with
  | false =>
    have hnone : ∀ u, holds_lock hist u = false := by
      intro u
      cases hu : holds_lock hist u with
      | false => rfl
      | true => exact absurd (hflag.mpr ⟨u, hu⟩) (by simp)
    refine ⟨?_, ?_⟩
    · intro a b ha hb
      simp only [spin_step, try_lock_clear, holds_lock_tried, hnone, and_true] at ha hb
      have ea : t = a := by by_contra hne; simp [hne] at ha
      have eb : t = b := by by_contra hne; simp [hne] at hb
      omega
    · simp only [spin_step, try_lock_clear, holds_lock_tried, true_iff]
      exact ⟨t, by simp⟩
  | true =>
    refine ⟨?_, ?_⟩
    · intro a b ha hb
      simp only [spin_step, try_lock_set, holds_lock_tried, Bool.false_eq_true,
        and_false, if_false] at ha hb
      exact huniq a b ha hb
    · simp only [spin_step, try_lock_set, holds_lock_tried, Bool.false_eq_true,
        and_false, if_false, true_iff]
      exact hflag.mp rfl

/-- An `unlock` step by the thread that holds the lock keeps mutual exclusion. -/
theorem mutual_exclusion_unlock (s : spin_state) (t : Nat)
    (h : mutual_exclusion holds_lock s) (ht : holds_lock s.history t = true) :
    mutual_exclusion holds_lock (spin_step s (spin_call.unlock t)) := by
  obtain ⟨m, hist⟩ := s
  obtain ⟨huniq, _⟩ := h
  simp only at huniq ht
  have hnone : ∀ u, holds_lock (spin_record.unlocked t :: hist) u = false := by
    intro u
    rw [holds_lock_unlocked]
    by_cases e : t = u
    · simp [e]
    · simp only [e, if_false]
      cases hu : holds_lock hist u with
      | false => rfl
      | true => exact absurd (huniq t u ht hu) e
  refine ⟨?_, ?_⟩
  · intro a b ha _
    simp only [spin_step] at ha
    rw [hnone a] at ha
    cases ha
  · simp only [spin_step, unlock, clear, hnone]
    simp

/-- Mutual exclusion is kept along every disciplined interleaving. -/
theorem mutual_exclusion_run :
    ∀ (calls : List spin_call) (s : spin_state),
      mutual_exclusion holds_lock s → disciplined holds_lock s calls = true →
      mutual_exclusion holds_lock (spin_run s calls) := by
  intro calls
  induction calls with
  | nil => intro s h _; exact h
  | cons c cs ih =>
    intro s h hd
    cases c with
    | try_lock t =>
      simp only [disciplined] at hd
      exact ih _ (mutual_exclusion_try_lock s t h) hd
    | unlock t =>
      simp only [disciplined, Bool.and_eq_true] at hd
      exact ih _ (mutual_exclusion_unlock s t h hd.1) hd.2

/-- A beginning of a disciplined interleaving is disciplined. -/
theorem disciplined_take (holding : List spin_record → Nat → Bool) :
    ∀ (calls : List spin_call) (s : spin_state) (n : Nat),
      disciplined holding s calls = true →
      disciplined holding s (calls.take n) = true := by
  intro calls
  induction calls with
  | nil => intro s n _; simp [disciplined]
  | cons c cs ih =>
    intro s n hd
    cases n with
    | zero => simp [disciplined]
    | succ n =>
      cases c with
      | try_lock t =>
        simp only [disciplined, List.take_succ_cons] at hd ⊢
        exact ih _ n hd
      | unlock t =>
        simp only [disciplined, List.take_succ_cons, Bool.and_eq_true] at hd ⊢
        exact ⟨hd.1, ih _ n hd.2⟩

theorem mutual_exclusion_init : mutual_exclusion holds_lock spin_init := by
  refine ⟨?_, ?_⟩
  · intro a b ha _
    simp [spin_init, holds_lock] at ha
  · simp [spin_init, holds_lock]

/-- C1, as the code has it: starting from a clear flag, in every interleaving
of atomic `try_lock` and `unlock` steps in which a thread calls `unlock` only
while it holds the lock (a `try_lock` of its own returned `true` and it has not
unlocked since), at every moment at most one thread holds the lock and the
flag is set exactly when some thread holds it. -/
theorem spinlock_mutual_exclusion (calls : List spin_call)
    (hd : disciplined holds_lock spin_init calls = true) (n : Nat) :
    mutual_exclusion holds_lock (spin_run spin_init (calls.take n)) :=
  mutual_exclusion_run (calls.take n) spin_init mutual_exclusion_init
    (disciplined_take holds_lock calls spin_init n hd)

/-- C1 at a concrete interleaving of two threads. -/
theorem spinlock_mutual_exclusion_witness :
    disciplined holds_lock spin_init
      [spin_call.try_lock 0, spin_call.try_lock 1, spin_call.try_lock 0,
        spin_call.unlock 0, spin_call.try_lock 1] = true ∧
    mutual_exclusion holds_lock (spin_run spin_init
      ([spin_call.try_lock 0, spin_call.try_lock 1, spin_call.try_lock 0,
        spin_call.unlock 0, spin_call.try_lock 1].take 3)) :=
  ⟨by decide, spinlock_mutual_exclusion _ (by decide) 3⟩

/-- C1 as stated fails when holding is read as "its last `try_lock` returned
`true` and it has not unlocked since": thread 0 takes the lock and tries
again. The interleaving has no `unlock`, the flag is set, and no thread holds
the lock in that sense, since the last `try_lock` of thread 0 returned `false`. -/
theorem spinlock_last_try_counterexample :
    disciplined holds_by_last_try spin_init
      [spin_call.try_lock 0, spin_call.try_lock 0] = true ∧
    (spin_run spin_init [spin_call.try_lock 0, spin_call.try_lock 0]).history
      = [spin_record.tried 0 false, spin_record.tried 0 true] ∧
    (spin_run spin_init [spin_call.try_lock 0, spin_call.try_lock 0]).m_lock = true ∧
    (¬ ∃ t, holds_by_last_try
      (spin_run spin_init [spin_call.try_lock 0, spin_call.try_lock 0]).history t = true) ∧
    ¬ mutual_exclusion holds_by_last_try
      (spin_run spin_init [spin_call.try_lock 0, spin_call.try_lock 0]) := by
  have hnone : ¬ ∃ t, holds_by_last_try
      (spin_run spin_init [spin_call.try_lock 0, spin_call.try_lock 0]).history t = true := by
    rintro ⟨t, ht⟩
    by_cases e : 0 = t
    · simp [spin_run, spin_step, spin_init, try_lock, test_and_set, holds_by_last_try, e] at ht
    · simp [spin_run, spin_step, spin_init, try_lock, test_and_set, holds_by_last_try, e] at ht
  refine ⟨by decide, by decide, by decide, hnone, ?_⟩
  intro hme
  exact hnone (hme.2.mp (by decide))

/-- C9: `unlock` does not check ownership. It clears the flag whichever thread
calls it and whatever the history; and in the interleaving "thread 0 takes the
lock, thread 1 calls `unlock`, thread 1 calls `try_lock`" the `try_lock` of
thread 1 returns `true` while thread 0 has not called `unlock`, so that threads
0 and 1 hold the lock at once. -/
theorem unlock_ignores_owner :
    (∀ (s : spin_state) (t : Nat), (spin_step s (spin_call.unlock t)).m_lock = false) ∧
    holds_lock (spin_run spin_init [spin_call.try_lock 0]).history 0 = true ∧
    holds_lock (spin_run spin_init [spin_call.try_lock 0]).history 1 = false ∧
    (spin_run spin_init
      [spin_call.try_lock 0, spin_call.unlock 1, spin_call.try_lock 1]).history
      = [spin_record.tried 1 true, spin_record.unlocked 1, spin_record.tried 0 true] ∧
    holds_lock (spin_run spin_init
      [spin_call.try_lock 0, spin_call.unlock 1, spin_call.try_lock 1]).history 0 = true ∧
    holds_lock (spin_run spin_init
      [spin_call.try_lock 0, spin_call.unlock 1, spin_call.try_lock 1]).history 1 = true ∧
    holds_by_last_try (spin_run spin_init
      [spin_call.try_lock 0, spin_call.unlock 1, spin_call.try_lock 1]).history 0 = true ∧
    holds_by_last_try (spin_run spin_init
      [spin_call.try_lock 0, spin_call.unlock 1, spin_call.try_lock 1]).history 1 = true :=
  ⟨fun _ _ => rfl, by decide, by decide, by decide, by decide, by decide, by decide,
    by decide⟩

/-! ## elbow_data -/

/-- C10: `set_amount` changes only the amount. For every `elbow_data` state and
every value `a`, after `set_amount a` the call `get_amount` returns `a` and
`get_wce` returns the WCE sequence it returned before; a default-constructed
object has amount 0 and an empty WCE sequence. -/
theorem set_amount_frame (d : elbow_data) (a : Nat) :
    (d.set_amount a).get_amount = a ∧
    (d.set_amount a).get_wce = d.get_wce ∧
    elbow_data.default.get_amount = 0 ∧
    elbow_data.default.get_wce = [] ∧
    (elbow_data.default.set_amount a).get_amount = a ∧
    (elbow_data.default.set_amount a).get_wce = [] :=
  ⟨rfl, rfl, rfl, rfl, rfl, rfl⟩

/-! ## The ensemble extractor -/

/-- Growing an ensemble only moves oscillators from `rest` into the ensemble. -/
theorem grow_ensemble_perm (edge : Nat → Nat → Bool) :
    ∀ (fuel : Nat) (comp rest : List Nat),
      ((grow_ensemble edge fuel comp rest).1 ++ (grow_ensemble edge fuel comp rest).2).Perm
        (comp ++ rest) := by
  intro fuel
  induction fuel with
  | zero => intro comp rest; exact List.Perm.refl _
  | succ f ih =>
    intro comp rest
    simp only [grow_ensemble]
    split
    · exact List.Perm.refl _
    · refine (ih _ _).trans ?_
      rw [List.append_assoc]
      exact List.Perm.append_left comp (List.filter_append_perm _ rest)

/-- Growing an ensemble does not lengthen the list of unassigned oscillators. -/
theorem grow_ensemble_length (edge : Nat → Nat → Bool) :
    ∀ (fuel : Nat) (comp rest : List Nat),
      (grow_ensemble edge fuel comp rest).2.length ≤ rest.length := by
  intro fuel
  induction fuel with
  | zero => intro comp rest; exact Nat.le_refl _
  | succ f ih =>
    intro comp rest
    simp only [grow_ensemble]
    split
    · exact Nat.le_refl _
    · exact Nat.le_trans (ih _ _) (List.length_filter_le _ rest)

/-- The extracted ensembles, put end to end, are a rearrangement of the
oscillators that were pending. -/
theorem extract_ensembles_perm (edge : Nat → Nat → Bool) :
    ∀ (fuel : Nat) (pending : List Nat), pending.length ≤ fuel →
      (extract_ensembles edge fuel pending).flatten.Perm pending := by
  intro fuel
  induction fuel with
  | zero =>
    intro pending h
    have : pending = [] := List.length_eq_zero.mp (by omega)
    subst this
    simp [extract_ensembles]
  | succ f ih =>
    intro pending h
    cases pending with
    | nil => simp [extract_ensembles]
    | cons i rest =>
      simp only [extract_ensembles, List.flatten_cons]
      have hlen : (grow_ensemble edge rest.length [i] rest).2.length ≤ f := by
        have := grow_ensemble_length edge rest.length [i] rest
        simp only [List.length_cons] at h
        omega
      have hrest := ih (grow_ensemble edge rest.length [i] rest).2 hlen
      exact (List.Perm.append_left _ hrest).trans
        (grow_ensemble_perm edge rest.length [i] rest)

/-- A list of groups whose concatenation rearranges `0 .. size - 1` is a true
partition of these indices. -/
theorem is_partition_of_perm (groups : List (List Nat)) (size : Nat)
    (h : groups.flatten.Perm (List.range size)) : is_partition groups size := by
  have hnodup : groups.flatten.Nodup := h.nodup_iff.mpr (List.nodup_range size)
  refine ⟨?_, (List.nodup_flatten.mp hnodup).2, ?_⟩
  · intro i
    rw [← List.mem_range, ← h.mem_iff, List.mem_flatten]
  · intro i hi
    exact List.count_eq_one_of_mem hnodup (h.mem_iff.mpr (List.mem_range.mpr hi))

/-- C6: for every network and every tolerance, the clustering result of
ensemble extraction, through `allocate_sync_ensembles_sync_network` and through
`get_clusters_syncnet`, is a true partition of the oscillator indices: the
union of the groups is `0 .. size - 1`, the groups are pairwise disjoint, and
every index appears exactly once. -/
theorem ensembles_partition (net : sync_network) (tolerance : ℚ) :
    is_partition (allocate_sync_ensembles_sync_network net tolerance) net.size ∧
    is_partition (get_clusters_syncnet net tolerance) net.size := by
  have h : (allocate_sync_ensembles net tolerance).flatten.Perm (List.range net.size) :=
    extract_ensembles_perm (ensemble_edge net tolerance) net.size (List.range net.size)
      (by simp)
  exact ⟨is_partition_of_perm _ _ h, is_partition_of_perm _ _ h⟩

/-! ## The extractor computes components -/

/-- When the budget of rounds covers `rest`, growing stops only when no edge
joins the ensemble to an oscillator left outside. -/
theorem grow_ensemble_closed (edge : Nat → Nat → Bool) :
    ∀ (fuel : Nat) (comp rest : List Nat), rest.length ≤ fuel →
      ∀ c, c ∈ (grow_ensemble edge fuel comp rest).1 →
      ∀ j, j ∈ (grow_ensemble edge fuel comp rest).2 →
        (edge c j || edge j c) = false := by
  intro fuel
  induction fuel with
  | zero =>
    intro comp rest h c _ j hj
    have : rest = [] := List.length_eq_zero.mp (by omega)
    subst this
    simp [grow_ensemble] at hj
  | succ f ih =>
    intro comp rest h
    simp only [grow_ensemble]
    split
    · rename_i hnear
      intro c hc j hj
      have hnil := List.isEmpty_iff.mp hnear
      have := (List.filter_eq_nil_iff.mp hnil) j hj
      simp only [List.any_eq_true, not_exists, not_and, Bool.not_eq_true] at this
      exact this c hc
    · rename_i hnear
      have hsum := (List.filter_append_perm
        (fun j => comp.any (fun c => edge c j || edge j c)) rest).length_eq
      have hpos : 0 < (rest.filter
          (fun j => comp.any (fun c => edge c j || edge j c))).length := by
        apply List.length_pos.mpr
        intro hnil
        exact hnear (List.isEmpty_iff.mpr hnil)
      rw [List.length_append] at hsum
      exact ih _ _ (by omega)

/-- The oscillators of an ensemble come from the pending ones. -/
theorem mem_pending_of_mem_ensemble (edge : Nat → Nat → Bool) (fuel : Nat)
    (pending : List Nat) (h : pending.length ≤ fuel) (g : List Nat)
    (hg : g ∈ extract_ensembles edge fuel pending) (i : Nat) (hi : i ∈ g) :
    i ∈ pending :=
  (extract_ensembles_perm edge fuel pending h).mem_iff.mp
    (List.mem_flatten.mpr ⟨g, hg, hi⟩)

/-- Two pending oscillators joined by an edge are put into the same ensemble. -/
theorem extract_ensembles_edge (edge : Nat → Nat → Bool) :
    ∀ (fuel : Nat) (pending : List Nat), pending.length ≤ fuel →
      ∀ i j, i ∈ pending → j ∈ pending → (edge i j || edge j i) = true →
      ∀ g, g ∈ extract_ensembles edge fuel pending → i ∈ g → j ∈ g := by
  intro fuel
  induction fuel with
  | zero =>
    intro pending _ i j _ _ _ g hg
    simp [extract_ensembles] at hg
  | succ f ih =>
    intro pending h i j hi hj hedge g hg hig
    cases pending with
    | nil => simp at hi
    | cons p rest =>
      have hlen : (grow_ensemble edge rest.length [p] rest).2.length ≤ f := by
        have := grow_ensemble_length edge rest.length [p] rest
        simp only [List.length_cons] at h
        omega
      have hperm := grow_ensemble_perm edge rest.length [p] rest
      have hclosed := grow_ensemble_closed edge rest.length [p] rest (Nat.le_refl _)
      have split_mem : ∀ x, x ∈ p :: rest →
          x ∈ (grow_ensemble edge rest.length [p] rest).1 ∨
          x ∈ (grow_ensemble edge rest.length [p] rest).2 := by
        intro x hx
        have : x ∈ (grow_ensemble edge rest.length [p] rest).1 ++
            (grow_ensemble edge rest.length [p] rest).2 :=
          hperm.mem_iff.mpr (by simpa using hx)
        exact List.mem_append.mp this
      simp only [extract_ensembles, List.mem_cons] at hg
      rcases hg with hg | hg
      · subst hg
        rcases split_mem j hj with hj1 | hj2
        · exact hj1
        · have := hclosed i hig j hj2
          rw [this] at hedge
          cases hedge
      · have hi2 := mem_pending_of_mem_ensemble edge f _ hlen g hg i hig
        rcases split_mem j hj with hj1 | hj2
        · have := hclosed j hj1 i hi2
          rw [Bool.or_comm] at this
          rw [this] at hedge
          cases hedge
        · exact ih _ hlen i j hi2 hj2 hedge g hg hig

/-- Growing an ensemble keeps its members. -/
theorem grow_ensemble_keeps (edge : Nat → Nat → Bool) :
    ∀ (fuel : Nat) (comp rest : List Nat) (x : Nat), x ∈ comp →
      x ∈ (grow_ensemble edge fuel comp rest).1 := by
  intro fuel
  induction fuel with
  | zero => intro comp rest x hx; exact hx
  | succ f ih =>
    intro comp rest x hx
    simp only [grow_ensemble]
    split
    · exact hx
    · exact ih _ _ x (List.mem_append_left _ hx)

/-- Every extracted ensemble has a member. -/
theorem extract_ensembles_ne_nil (edge : Nat → Nat → Bool) :
    ∀ (fuel : Nat) (pending : List Nat) (g : List Nat),
      g ∈ extract_ensembles edge fuel pending → g ≠ [] := by
  intro fuel
  induction fuel with
  | zero => intro pending g hg; simp [extract_ensembles] at hg
  | succ f ih =>
    intro pending g hg
    cases pending with
    | nil => simp [extract_ensembles] at hg
    | cons p rest =>
      simp only [extract_ensembles, List.mem_cons] at hg
      rcases hg with hg | hg
      · subst hg
        exact List.ne_nil_of_mem
          (grow_ensemble_keeps edge rest.length [p] rest p (List.mem_singleton.mpr rfl))
      · exact ih _ g hg

/-- The model of the extractor does what section 4.5 asks of it: no group is
empty, and two oscillators joined by an edge (network-connected and
phase-tolerant) belong to the same group. -/
theorem ensembles_are_components (net : sync_network) (tolerance : ℚ) :
    (∀ g, g ∈ allocate_sync_ensembles net tolerance → g ≠ []) ∧
    ∀ i j, i < net.size → j < net.size →
      ensemble_edge net tolerance i j = true →
      ∀ g, g ∈ allocate_sync_ensembles net tolerance → (i ∈ g ↔ j ∈ g) := by
  refine ⟨extract_ensembles_ne_nil _ _ _, ?_⟩
  intro i j hi hj hedge g hg
  have hlen : (List.range net.size).length ≤ net.size := by simp
  have hi2 : i ∈ List.range net.size := List.mem_range.mpr hi
  have hj2 : j ∈ List.range net.size := List.mem_range.mpr hj
  constructor
  · exact extract_ensembles_edge _ _ _ hlen i j hi2 hj2 (by simp [hedge]) g hg
  · exact extract_ensembles_edge _ _ _ hlen j i hj2 hi2 (by simp [hedge]) g hg

/-! ## Concrete runs of the extractor -/

/-- The extractor on five oscillators coupled `i -- i + 2`: the even and the odd
indices form the two ensembles. -/
theorem extract_ensembles_two_chains :
    extract_ensembles (fun i j => decide (i + 2 = j)) 5 (List.range 5)
      = [[0, 2, 4], [1, 3]] := by
  decide

/-- The extractor follows chains of edges in both directions: with the edges
`0 -- 1`, `4 -- 0`, `4 -- 5` and `2 -- 3` the ensembles are `0, 1, 4, 5` and
`2, 3`. -/
theorem extract_ensembles_chains :
    extract_ensembles
      (fun i j => decide (i = 4 ∧ j = 0) || decide (i + 1 = j ∧ j ≠ 2 ∧ j ≠ 4))
      6 (List.range 6) = [[0, 1, 4, 5], [2, 3]] := by
  decide

/-! ## The element-type tags of `pyclustering_package` -/

/-- C11: the seven element-type tags of `pyclustering_type_data` have pairwise
distinct codes that are exactly `0 .. 6` (INT = 0, UNSIGNED_INT = 1, FLOAT = 2,
DOUBLE = 3, LONG = 4, UNSIGNED_LONG = 5, LIST = 6), every code fits an
`unsigned int`, and the `type` field stored by `pyclustering_package(package_type)`
is the code it was given, so that two packages built from tags `a` and `b` with
equal `type` fields have `a = b`, whatever else their storage holds. -/
theorem package_type_identifies (a b : pyclustering_type_data)
    (raw₁ raw₂ : pyclustering_package) :
    pyclustering_type_data.tags.map pyclustering_type_data.code = [0, 1, 2, 3, 4, 5, 6] ∧
    (∀ t : pyclustering_type_data, t ∈ pyclustering_type_data.tags) ∧
    pyclustering_type_data.tags.length = 7 ∧
    a.code < 7 ∧ a.code < UINT_MODULUS ∧
    (a.code = b.code → a = b) ∧
    (pyclustering_package.construct raw₁ a.code).type = a.code ∧
    ((pyclustering_package.construct raw₁ a.code).type
        = (pyclustering_package.construct raw₂ b.code).type → a = b) := by
  refine ⟨rfl, ?_, rfl, ?_, ?_, ?_, rfl, ?_⟩
  · intro t
    cases t <;> simp [pyclustering_type_data.tags]
  · cases a <;> simp [pyclustering_type_data.code]
  · cases a <;> simp [pyclustering_type_data.code, UINT_MODULUS]
  · cases a <;> cases b <;> simp [pyclustering_type_data.code]
  · cases a <;> cases b <;>
      simp [pyclustering_package.construct, pyclustering_type_data.code]

/-- C11 at two packages built for `PYCLUSTERING_TYPE_DOUBLE` over different
storage: their `type` fields agree, and so do the tags. -/
theorem package_type_identifies_witness :
    (pyclustering_package.construct ⟨0, 0, 0⟩
        pyclustering_type_data.PYCLUSTERING_TYPE_DOUBLE.code).type
      = (pyclustering_package.construct ⟨5, 9, 7⟩
        pyclustering_type_data.PYCLUSTERING_TYPE_DOUBLE.code).type ∧
    (pyclustering_package.construct ⟨0, 0, 0⟩
        pyclustering_type_data.PYCLUSTERING_TYPE_DOUBLE.code).type = 3 ∧
    pyclustering_type_data.PYCLUSTERING_TYPE_DOUBLE
      = pyclustering_type_data.PYCLUSTERING_TYPE_DOUBLE :=
  ⟨by decide, by decide,
    (package_type_identifies pyclustering_type_data.PYCLUSTERING_TYPE_DOUBLE
      pyclustering_type_data.PYCLUSTERING_TYPE_DOUBLE ⟨0, 0, 0⟩ ⟨5, 9, 7⟩).2.2.2.2.2.2.2
      (by decide)⟩
